import Mathlib

/-!
Verification of the crawl core of the `web-scanner` repository.

URL strings are modelled as `List Char`.  The functions below are shallow
embeddings of:
  * `urllib.parse.urlsplit` / `urlparse` / `urljoin` / `urlunparse`
    (CPython `urllib/parse.py`), as used by the crawler.  Two deliberate,
    documented simplifications: the removal of ASCII tab/newline bytes and
    the stripping of leading and trailing control characters performed by
    CPython before parsing are not modelled (they are the identity on URLs
    free of such characters, and every theorem below stays inside that
    fragment); and of the two `ValueError` paths of `urlsplit` only the
    mismatched-bracket check is modelled (`urlsplitRaises`), not the full
    `_check_bracketed_host` IPv6 validation — theorems that depend on the
    absence of an exception carry explicit bracket-freeness hypotheses.
  * `WebCrawler._normalize_url`, `_is_valid_url`, `_filter_links`
    (`src/web_scanner/crawler/crawler.py`).
  * `SmartPageLoader.goto` and `retry_with_backoff` (`src/web_scanner/browser.py`).
  * The `WebCrawler._worker` / `crawl` coordination loop, as a small-step
    transition relation over the shared crawler state.
-/

namespace WebScanner

/-- URL strings are modelled as lists of characters. -/
abbrev Str := List Char

/-- Models Python `str.lower` on one character, restricted to ASCII
(the callers below only lower strings whose characters are ASCII). -/
def lowerChar (c : Char) : Char :=
  if 65 ≤ c.toNat ∧ c.toNat ≤ 90 then Char.ofNat (c.toNat + 32) else c

/-- Models Python `str.lower` restricted to ASCII. -/
def lower (s : Str) : Str := s.map lowerChar

/-- ASCII letter test, models `c.isascii() and c.isalpha()`. -/
def isAsciiAlpha (c : Char) : Bool :=
  (65 ≤ c.toNat && c.toNat ≤ 90) || (97 ≤ c.toNat && c.toNat ≤ 122)

/-- Characters allowed in a URL scheme: `scheme_chars` of `urllib.parse`
(ASCII letters, digits, and `+`, `-`, `.`). -/
def isSchemeChar (c : Char) : Bool :=
  isAsciiAlpha c || (48 ≤ c.toNat && c.toNat ≤ 57) || c == '+' || c == '-' || c == '.'

/-- Splits a string at the first occurrence of `c`; models Python
`s.split(c, 1)` guarded by `if c in s` (when `c` does not occur the
result is `(s, [])`, matching the guarded code path that leaves the
second component empty). -/
def splitAtFirst (c : Char) (s : Str) : Str × Str :=
  (s.takeWhile (fun a => a != c), (s.dropWhile (fun a => a != c)).tail)

/-- The scheme-splitting step of `urlsplit`: if the part before the first
`:` is a nonempty valid scheme starting with an ASCII letter, return it
lowercased together with the remainder, else return no scheme and the
whole input. -/
def splitScheme (u : Str) : Str × Str :=
  let pre := u.takeWhile (fun a => a != ':')
  let rest := u.dropWhile (fun a => a != ':')
  if rest != [] && pre != [] && isAsciiAlpha (pre.headD ' ') && pre.all isSchemeChar then
    (lower pre, rest.tail)
  else ([], u)

/-- A character ending a netloc (`_splitnetloc` stops at `/`, `?`, `#`). -/
def netlocDelim (c : Char) : Bool := c == '/' || c == '?' || c == '#'

/-- Models `urllib.parse._splitnetloc` (after the leading `//` has been
dropped by the caller). -/
def splitNetloc (u : Str) : Str × Str :=
  (u.takeWhile (fun c => !netlocDelim c), u.dropWhile (fun c => !netlocDelim c))

/-- The six components of a parsed URL, as in `urllib.parse.ParseResult`. -/
structure UrlParts where
  scheme : Str
  netloc : Str
  path : Str
  params : Str
  query : Str
  fragment : Str
deriving DecidableEq, Repr

/-- Models `urllib.parse.urlsplit` (with `allow_fragments=True`); the
`params` component is always empty here, `urlparse` fills it in. -/
def urlsplit (u : Str) : UrlParts :=
  let sr := splitScheme u
  let scheme := sr.1
  let rest := sr.2
  let nr := if rest.take 2 == [ '/', '/' ] then splitNetloc (rest.drop 2) else ([], rest)
  let netloc := nr.1
  let rest := nr.2
  let rf := splitAtFirst '#' rest
  let rest := rf.1
  let fragment := rf.2
  let pq := splitAtFirst '?' rest
  ⟨scheme, netloc, pq.1, [], pq.2, fragment⟩

/-- Models `urllib.parse._splitparams` (only called when `;` occurs in the
path): split parameters off the last path segment. -/
def splitparams (p : Str) : Str × Str :=
  if p.contains '/' then
    let pre := (p.reverse.dropWhile (fun c => c != '/')).reverse
    let seg := (p.reverse.takeWhile (fun c => c != '/')).reverse
    if seg.contains ';' then
      (pre ++ seg.takeWhile (fun c => c != ';'), (seg.dropWhile (fun c => c != ';')).tail)
    else (p, [])
  else (p.takeWhile (fun c => c != ';'), (p.dropWhile (fun c => c != ';')).tail)

/-- Models `urllib.parse.urlparse`: `urlsplit` plus the params split. -/
def urlparse (u : Str) : UrlParts :=
  let r := urlsplit u
  if r.path.contains ';' then
    let pp := splitparams r.path
    { r with path := pp.1, params := pp.2 }
  else r

/-- The mismatched-bracket check of `urlsplit` that raises
`ValueError("Invalid IPv6 URL")`.  (The further `_check_bracketed_host`
validation on well-bracketed netlocs is not modelled; no theorem below
relies on the behaviour of netlocs containing brackets.) -/
def urlsplitRaises (u : Str) : Bool :=
  let rest := (splitScheme u).2
  if rest.take 2 == [ '/', '/' ] then
    let netloc := (splitNetloc (rest.drop 2)).1
    (netloc.contains '[' && !netloc.contains ']') ||
    (netloc.contains ']' && !netloc.contains '[')
  else false

/-- `urlparse` with the `ValueError` made explicit, for callers that catch
it (`WebCrawler._is_valid_url`). -/
def urlparseE (u : Str) : Except Unit UrlParts :=
  if urlsplitRaises u then .error () else .ok (urlparse u)

/-- Models Python `s.rstrip("/")`. -/
def rstripSlash (s : Str) : Str :=
  (s.reverse.dropWhile (fun c => c == '/')).reverse

/-- Models `WebCrawler._normalize_url`: rebuild
`scheme://netloc path [?query]` from the parse and strip trailing
slashes (fragment and params are dropped). -/
def normalizeUrl (url : Str) : Str :=
  let parsed := urlparse url
  let normalized := parsed.scheme ++ [ ':', '/', '/' ] ++ parsed.netloc ++ parsed.path
  let normalized := if parsed.query != [] then normalized ++ '?' :: parsed.query else normalized
  rstripSlash normalized

/-- The `skip_extensions` denylist of `WebCrawler._is_valid_url`. -/
def skipExtensions : List Str :=
  [ ".pdf".toList, ".jpg".toList, ".jpeg".toList, ".png".toList, ".gif".toList, ".svg".toList,
    ".ico".toList, ".css".toList, ".js".toList, ".xml".toList, ".json".toList, ".zip".toList,
    ".tar".toList, ".gz".toList, ".mp3".toList, ".mp4".toList, ".avi".toList, ".mov".toList,
    ".webm".toList, ".woff".toList, ".woff2".toList, ".ttf".toList, ".eot".toList, ".map".toList ]

/-- Models `WebCrawler._is_valid_url`: same domain, http(s) scheme, no
denylisted resource extension; any parse exception yields `false`
(the surrounding `try`/`except`). -/
def isValidUrl (baseDomain : Str) (url : Str) : Bool :=
  match urlparseE url with
  | .error _ => false
  | .ok parsed =>
    if parsed.netloc != baseDomain then false
    else if !(parsed.scheme == "http".toList || parsed.scheme == "https".toList) then false
    else if skipExtensions.any (fun ext => ext.isSuffixOf (lower parsed.path)) then false
    else true

/-- `uses_relative` of `urllib.parse`. -/
def usesRelative : List Str :=
  [ "".toList, "ftp".toList, "http".toList, "gopher".toList, "nntp".toList, "imap".toList,
    "wais".toList, "file".toList, "https".toList, "shttp".toList, "mms".toList,
    "prospero".toList, "rtsp".toList, "rtspu".toList, "sftp".toList,
    "svn".toList, "svn+ssh".toList, "ws".toList, "wss".toList ]

/-- `uses_netloc` of `urllib.parse`. -/
def usesNetloc : List Str :=
  [ "".toList, "ftp".toList, "http".toList, "gopher".toList, "nntp".toList, "telnet".toList,
    "imap".toList, "wais".toList, "file".toList, "mms".toList, "https".toList, "shttp".toList,
    "snews".toList, "prospero".toList, "rtsp".toList, "rtspu".toList, "rsync".toList,
    "svn".toList, "svn+ssh".toList, "sftp".toList, "nfs".toList, "git".toList,
    "git+ssh".toList, "ws".toList, "wss".toList, "itms-services".toList ]

/-- Models `urlparse(url, scheme=default)`: the default scheme is used when
the URL itself carries none. -/
def urlparseD (default : Str) (u : Str) : UrlParts :=
  let r := urlparse u
  if r.scheme == [] then { r with scheme := default } else r

/-- Models `urllib.parse.urlunsplit`. -/
def urlunsplit (scheme netloc path query fragment : Str) : Str :=
  let url := path
  let url :=
    if netloc != [] || url.take 2 == [ '/', '/' ] then
      let url2 := if url != [] && url.take 1 != [ '/' ] then '/' :: url else url
      [ '/', '/' ] ++ netloc ++ url2
    else url
  let url := if scheme != [] then scheme ++ ':' :: url else url
  let url := if query != [] then url ++ '?' :: query else url
  if fragment != [] then url ++ '#' :: fragment else url

/-- Models `urllib.parse.urlunparse`. -/
def urlunparse (p : UrlParts) : Str :=
  let url := if p.params != [] then p.path ++ ';' :: p.params else p.path
  urlunsplit p.scheme p.netloc url p.query p.fragment

/-- Models Python `s.split('/')` (always returns at least one segment). -/
def splitSlash : Str → List Str
  | [] => [ [] ]
  | c :: rest =>
    let r := splitSlash rest
    if c == '/' then [] :: r else (c :: r.headD []) :: r.tail

/-- The `segments[1:-1] = filter(None, segments[1:-1])` step of `urljoin`:
drop empty segments, keeping the first and last. -/
def filterMiddle : List Str → List Str
  | [] => []
  | [ x ] => [ x ]
  | x :: rest => x :: (rest.dropLast.filter (fun s => s != []) ++ [ rest.getLastD [] ])

/-- The `..`/`.` resolution loop of `urljoin`. -/
def resolveSegments (segs : List Str) : List Str :=
  segs.foldl
    (fun acc seg =>
      if seg == "..".toList then acc.dropLast
      else if seg == ".".toList then acc
      else acc ++ [ seg ]) []

/-- Models `urllib.parse.urljoin`. -/
def urljoin (base url : Str) : Str :=
  if base == [] then url
  else if url == [] then base
  else
    let b := urlparse base
    let r := urlparseD b.scheme url
    if r.scheme != b.scheme || !usesRelative.contains r.scheme then url
    else if usesNetloc.contains r.scheme && r.netloc != [] then urlunparse r
    else
      let netloc := if usesNetloc.contains r.scheme then b.netloc else r.netloc
      if r.path == [] && r.params == [] then
        let query := if r.query == [] then b.query else r.query
        urlunparse ⟨r.scheme, netloc, b.path, b.params, query, r.fragment⟩
      else
        let baseParts := splitSlash b.path
        let baseParts := if baseParts.getLastD [] != [] then baseParts.dropLast else baseParts
        let segments :=
          if r.path.take 1 == [ '/' ] then splitSlash r.path
          else filterMiddle (baseParts ++ splitSlash r.path)
        let resolved := resolveSegments segments
        let resolved :=
          if segments.getLastD [] == ".".toList || segments.getLastD [] == "..".toList then
            resolved ++ [ [] ]
          else resolved
        let joined := List.intercalate [ '/' ] resolved
        urlunparse ⟨r.scheme, netloc, if joined == [] then [ '/' ] else joined,
                    r.params, r.query, r.fragment⟩

/-- The body of the `_filter_links` loop: resolve one link against the
current URL, normalize it, and collect it when it is valid and not yet
collected. -/
def filterLinksStep (baseDomain currentUrl : Str) (filtered : List Str) (link : Str) :
    List Str :=
  let absoluteUrl := urljoin currentUrl link
  let normalized := normalizeUrl absoluteUrl
  if isValidUrl baseDomain normalized && !filtered.contains normalized then
    filtered ++ [ normalized ]
  else filtered

/-- Models `WebCrawler._filter_links`: resolve each link against the
current URL, normalize, keep only valid not-yet-collected links,
preserving first-occurrence order. -/
def filterLinks (baseDomain : Str) (links : List Str) (currentUrl : Str) : List Str :=
  links.foldl (filterLinksStep baseDomain currentUrl) []

/-- The status of a crawled page (`models.PageStatus`). -/
inductive PageStatus
  | SUCCESS
  | ERROR
  | TIMEOUT
  | BLOCKED
  | NOT_FOUND
deriving DecidableEq, Repr

/-- A crawled page (`models.CrawledPage`).  The wall-clock fields
`crawled_at` and `response_time_ms` and the filesystem field
`screenshot_path` are omitted: no claim mentions them and they depend on
real time / storage. -/
structure CrawledPage where
  url : Str
  status : PageStatus
  status_code : Option Nat
  content_type : Option Str
  html : Option Str
  text : Option Str
  title : Option Str
  links : List Str
  depth : Nat
  error_message : Option Str
deriving DecidableEq, Repr

/-- The possible outcomes of one `page.goto` call inside
`SmartPageLoader.goto`: a raised `PlaywrightTimeout`, another raised
exception, a `None` response, or a response with an HTTP status and a
content type.  The content type is carried to record what the server
actually served; `goto` itself never looks at it. -/
inductive NavOutcome
  | timeout
  | exn (msg : Str)
  | noResponse
  | response (status : Nat) (contentType : Str)
deriving DecidableEq, Repr

/-- Models `SmartPageLoader.goto`: returns `False` on a raised
`PlaywrightTimeout`, on any other exception, on a `None` response and on
an HTTP status `>= 400`; returns `True` otherwise.  (The subsequent
`_wait_for_dynamic_content` call catches all of its own timeouts and
exceptions, so it cannot change the result.) -/
def gotoOutcome : NavOutcome → Bool
  | .timeout => false
  | .exn _ => false
  | .noResponse => false
  | .response status _ => if 400 ≤ status then false else true

/-- Models `retry_with_backoff` (`browser.py`): the loop body, structurally
recursive on the remaining number of attempts, with `attempt + fuel =
maxRetries` at every call.  Delays (`asyncio.sleep` arguments) are
returned as a list of exact rationals standing for the float values
`min(base_delay * 2 ** attempt, max_delay)`; for the powers of two and
the small constants involved, float arithmetic is exact, so the rational
model is faithful.  The result `.error none` models the `raise
last_exception` with `last_exception is None`, reachable only when
`maxRetries = 0`. -/
def retryCore {E A : Type} (func : Nat → Except E A) (baseDelay maxDelay : ℚ)
    (maxRetries : Nat) : Nat → Nat → Option E → Except (Option E) A × List ℚ
  | _, 0, lastException => (.error lastException, [])
  | attempt, fuel + 1, _ =>
    match func attempt with
    | .ok a => (.ok a, [])
    | .error e =>
      let rest := retryCore func baseDelay maxDelay maxRetries (attempt + 1) fuel (some e)
      if attempt < maxRetries - 1 then
        (rest.1, min (baseDelay * 2 ^ attempt) maxDelay :: rest.2)
      else rest

/-- Models `retry_with_backoff(func, max_retries, base_delay, max_delay)`:
`func attempt` is the behaviour of the wrapped call on the given
(0-based) attempt.  Returns the final outcome and the list of sleep
delays performed between attempts. -/
def retry_with_backoff {E A : Type} (func : Nat → Except E A) (maxRetries : Nat)
    (baseDelay maxDelay : ℚ) : Except (Option E) A × List ℚ :=
  retryCore func baseDelay maxDelay maxRetries 0 maxRetries none

/-- Everything the outside world supplies when one URL is fetched: the
outcome of each navigation attempt and the extracted page data of the
rendered page. -/
structure PageData where
  nav : Nat → NavOutcome
  html : Str
  text : Str
  title : Str
  rawLinks : List Str

/-- The inner `navigate` closure of `WebCrawler._fetch_page`: calls
`loader.goto` and raises `Exception("Navigation failed")` when it
returns `False`. -/
def navigateResult (d : PageData) (attempt : Nat) : Except Str Bool :=
  if gotoOutcome (d.nav attempt) then .ok true else .error "Navigation failed".toList

/-- The `str(e)` applied by `_fetch_page` to the caught exception; the
`none` case (re-raise of `None`, only possible with `maxRetries = 0`)
is represented by the empty message. -/
def errMessage : Option Str → Str
  | some m => m
  | none => []

/-- Models `WebCrawler._fetch_page`: navigation with retry; on failure a
page with status `ERROR` and the error message, on success a page with
status `SUCCESS`, hard-coded `status_code = 200` and `content_type =
"text/html"`, and the filtered links.  The screenshot step is omitted
(non-fatal, affects only the omitted `screenshot_path` field).  The
`except PlaywrightTimeout` branch of the source (status `TIMEOUT`) is
reachable only from post-navigation extraction calls, which are modelled
as pure data, so it does not appear here; navigation timeouts are
swallowed by `goto` and surface through the `ERROR` branch. -/
def fetchPage (maxRetries : Nat) (baseDomain : Str) (d : PageData) (url : Str)
    (depth : Nat) : CrawledPage :=
  match (retry_with_backoff (navigateResult d) maxRetries 1 10).1 with
  | .error e =>
    ⟨url, .ERROR, none, none, none, none, none, [], depth, some (errMessage e)⟩
  | .ok _ =>
    ⟨url, .SUCCESS, some 200, some "text/html".toList, some d.html, some d.text,
     some d.title, filterLinks baseDomain d.rawLinks url, depth, none⟩

/-- The crawl configuration consumed by the worker loop. -/
structure CrawlerConfig where
  baseDomain : Str
  maxDepth : Nat
  maxPages : Nat
  maxRetries : Nat

/-- The local state of one worker coroutine: waiting at the queue,
between claiming a URL and appending its result (the fetch spans the
`await` points of `_fetch_page`), or exited after an empty-queue
timeout. -/
inductive WorkerState
  | idle
  | fetching (url : Str) (depth : Nat)
  | done
deriving DecidableEq, Repr

/-- The shared crawler state: the frontier queue, the visited set, the
result list and the per-worker states.  `dispatched` is a ghost history
of the URLs whose fetch has been dispatched, recorded at claim time. -/
structure CrawlState where
  queue : List (Str × Nat)
  visited : List Str
  results : List CrawledPage
  workers : List WorkerState
  dispatched : List Str
deriving DecidableEq, Repr

/-- The links enqueued after a page is recorded: only from a `SUCCESS`
page at depth `< maxDepth`, each not-yet-visited link at `depth + 1`. -/
def enqueueLinks (cfg : CrawlerConfig) (page : CrawledPage) (depth : Nat)
    (visited : List Str) : List (Str × Nat) :=
  if page.status = .SUCCESS ∧ depth < cfg.maxDepth then
    (page.links.filter (fun l => !visited.contains l)).map (fun l => (l, depth + 1))
  else []

/-- Small-step semantics of `WebCrawler._worker` under asyncio's
cooperative scheduling, for an arbitrary interleaving of the workers.
`web` assigns to every URL the navigation outcomes and extracted data
its fetch would produce.  The atomic sections match the `await` points
of the source: dequeue + visited/ceiling check + visited insert run
without suspension (lines 222-230), the fetch is a suspension, and
append + link enqueueing run without suspension (lines 237-244; the
queue is unbounded, so `put` never suspends).  The semaphore is not
represented: it only limits how many workers are inside the fetch
section, which this relation leaves unconstrained (a superset of the
semaphore-constrained behaviours; all invariants proved below hold for
every interleaving, hence also for the constrained ones). -/
inductive Step (cfg : CrawlerConfig) (web : Str → PageData) : CrawlState → CrawlState → Prop
  | skip (s : CrawlState) (i : Nat) (u : Str) (d : Nat) (rest : List (Str × Nat)) :
      s.workers[i]? = some .idle →
      s.queue = (u, d) :: rest →
      (u ∈ s.visited ∨ cfg.maxPages ≤ s.results.length) →
      Step cfg web s { s with queue := rest }
  | claim (s : CrawlState) (i : Nat) (u : Str) (d : Nat) (rest : List (Str × Nat)) :
      s.workers[i]? = some .idle →
      s.queue = (u, d) :: rest →
      u ∉ s.visited →
      s.results.length < cfg.maxPages →
      Step cfg web s
        { s with queue := rest, visited := u :: s.visited,
                 workers := s.workers.set i (.fetching u d),
                 dispatched := u :: s.dispatched }
  | finish (s : CrawlState) (i : Nat) (u : Str) (d : Nat) :
      s.workers[i]? = some (.fetching u d) →
      Step cfg web s
        { s with results := s.results ++ [ fetchPage cfg.maxRetries cfg.baseDomain (web u) u d ],
                 queue := s.queue ++
                   enqueueLinks cfg (fetchPage cfg.maxRetries cfg.baseDomain (web u) u d)
                     d s.visited,
                 workers := s.workers.set i .idle }
  | timeoutExit (s : CrawlState) (i : Nat) :
      s.workers[i]? = some .idle →
      s.queue = [] →
      Step cfg web s { s with workers := s.workers.set i .done }

/-- The crawler state right after `crawl()` has seeded the frontier and
spawned `n` workers: the constructor stores `base_url.rstrip("/")` and
`crawl` enqueues `(self.base_url, 0)`. -/
def initState (baseUrl : Str) (n : Nat) : CrawlState :=
  ⟨[ (rstripSlash baseUrl, 0) ], [], [], List.replicate n .idle, []⟩

/-- States reachable from `init` by the worker-step relation. -/
inductive Reachable (cfg : CrawlerConfig) (web : Str → PageData) (init : CrawlState) :
    CrawlState → Prop
  | refl : Reachable cfg web init init
  | tail {s t : CrawlState} : Reachable cfg web init s → Step cfg web s t →
      Reachable cfg web init t

/-- A worker that has claimed a URL and not yet recorded its result. -/
def isFetchState : WorkerState → Bool
  | .fetching _ _ => true
  | _ => false

/-- Number of workers currently between claim and append. -/
def fetchingCount (ws : List WorkerState) : Nat := ws.countP isFetchState

/-- Concrete configuration used by the concrete traces below: domain
`example.com`, `maxDepth = 1`, `maxPages = 2`, `maxRetries = 3`. -/
def cfgC1 : CrawlerConfig := ⟨ "example.com".toList, 1, 2, 3⟩

/-- The root URL of the concrete traces. -/
def rootC1 : Str := "http://example.com".toList

/-- A discovered page URL of the concrete traces. -/
def bC1 : Str := "http://example.com/b".toList

/-- Another discovered page URL of the concrete traces. -/
def cC1 : Str := "http://example.com/c".toList

/-- A web where every navigation succeeds with HTTP 200 and only the root
page links to `bC1` and `cC1`. -/
def webC1 : Str → PageData := fun u =>
  ⟨fun _ => .response 200 "text/html".toList, [], [], [],
   if u == rootC1 then [ bC1, cC1 ] else []⟩

/-- Page data whose every navigation attempt raises `PlaywrightTimeout`. -/
def timeoutPageData : PageData := ⟨fun _ => .timeout, [], [], [], []⟩

/-- Page data served with HTTP status 204 and content type
`application/json`: used to show that the real status and content type
are never recorded. -/
def page204Data : PageData :=
  ⟨fun _ => .response 204 "application/json".toList, "<p>hi</p>".toList, "hi".toList,
   "t".toList, []⟩

/-- The navigation stub of the retry/backoff test: fails on the first two
attempts, succeeds on the third. -/
def stubFunc : Nat → Except Str Nat :=
  fun j => if j < 2 then .error "boom".toList else .ok 42

/-- The validity predicate as the specification words it: scheme in
{http, https}, host equal to the base domain, and path extension not in
the denylist; false on URLs whose parse raises.  Stated separately from
`isValidUrl` (which is translated from the source) so that the two can
be proved equal. -/
def isValidSpec (baseDomain : Str) (url : Str) : Bool :=
  match urlparseE url with
  | .error _ => false
  | .ok parsed =>
    (parsed.scheme == "http".toList || parsed.scheme == "https".toList) &&
    parsed.netloc == baseDomain &&
    !(skipExtensions.any (fun ext => ext.isSuffixOf (lower parsed.path)))

/-- A raw link that begins with one of the pseudo-scheme markers the spec
says are rejected. -/
def isPseudoLink (l : Str) : Bool :=
  "javascript:".toList.isPrefixOf l || "mailto:".toList.isPrefixOf l ||
  "tel:".toList.isPrefixOf l

/-- Helper: reading an updated list either hits the written value or the
original list. -/
theorem getElem?_set_cases {α : Type} {l : List α} {i j : Nat} {a w : α}
    (h : (l.set i a)[j]? = some w) : w = a ∨ l[j]? = some w := by
  rw [List.getElem?_set] at h
  split at h
  · split at h
    · exact Or.inl (Option.some.inj h).symm
    · exact absurd h (by simp)
  · exact Or.inr h

/-- Helper: how `countP` changes under a single-position update. -/
theorem countP_set {α : Type} (p : α → Bool) (l : List α) (i : Nat) (v w : α)
    (h : l[i]? = some w) :
    (l.set i v).countP p + (if p w then 1 else 0) = l.countP p + (if p v then 1 else 0) := by
  induction l generalizing i with
  | nil => simp at h
  | cons a t ih =>
    cases i with
    | zero =>
      simp only [List.getElem?_cons_zero, Option.some.injEq] at h
      subst h
      simp only [List.set_cons_zero, List.countP_cons]
      omega
    | succ j =>
      simp only [List.getElem?_cons_succ] at h
      have := ih j h
      simp only [List.set_cons_succ, List.countP_cons]
      omega

/-- Helper: a list with an entry violating `p` has `countP p` below its
length. -/
theorem countP_lt_length {α : Type} (p : α → Bool) (l : List α) (i : Nat) (w : α)
    (h : l[i]? = some w) (hw : p w = false) : l.countP p < l.length := by
  rcases Nat.lt_or_ge (l.countP p) l.length with hlt | hge
  · exact hlt
  · have heq : l.countP p = l.length := Nat.le_antisymm (List.countP_le_length p) hge
    have := (List.countP_eq_length.mp heq) w (List.getElem?_mem h)
    rw [hw] at this
    exact absurd this (by simp)

/-- The inductive invariant behind the page-count bound: recorded results
plus in-flight fetches stay below the ceiling plus the worker count. -/
theorem results_bound_inv (cfg : CrawlerConfig) (web : Str → PageData) (baseUrl : Str)
    (n : Nat) (hn : 1 ≤ n) :
    ∀ s, Reachable cfg web (initState baseUrl n) s →
      s.results.length + fetchingCount s.workers + 1 ≤ cfg.maxPages + s.workers.length ∧
      s.workers.length = n := by
  intro s hs
  induction hs with
  | refl =>
    constructor
    · simp [initState, fetchingCount, List.countP_replicate, isFetchState]
      omega
    · simp [initState]
  | @tail s t hreach hstep ih =>
    cases hstep with
    | skip i u d rest hw hq hcond =>
      exact ih
    | claim i u d rest hw hq hvis hlen =>
      refine ⟨?_, by simpa [List.length_set] using ih.2⟩
      have hcnt := countP_set isFetchState s.workers i (.fetching u d) .idle hw
      have hflt := countP_lt_length isFetchState s.workers i .idle hw (by rfl)
      simp [isFetchState] at hcnt
      simp only [fetchingCount, List.length_set] at *
      omega
    | finish i u d hw =>
      have hcnt := countP_set isFetchState s.workers i .idle (.fetching u d) hw
      simp [isFetchState] at hcnt
      have hin := ih.1
      refine ⟨?_, by simpa [List.length_set] using ih.2⟩
      simp only [fetchingCount, List.length_set, List.length_append, List.length_cons,
        List.length_nil] at *
      omega
    | timeoutExit i hw hq =>
      have hcnt := countP_set isFetchState s.workers i .done .idle hw
      simp [isFetchState] at hcnt
      have hin := ih.1
      refine ⟨?_, by simpa [List.length_set] using ih.2⟩
      simp only [fetchingCount, List.length_set] at *
      omega

/-- The claim-before-fetch discipline: every dispatched URL was put into
the visited set at claim time and no URL is dispatched twice. -/
theorem dispatched_inv (cfg : CrawlerConfig) (web : Str → PageData) (baseUrl : Str)
    (n : Nat) : ∀ s, Reachable cfg web (initState baseUrl n) s →
      s.dispatched.Nodup ∧ ∀ u ∈ s.dispatched, u ∈ s.visited := by
  intro s hs
  induction hs with
  | refl => simp [initState]
  | @tail s t hreach hstep ih =>
    cases hstep with
    | skip i u d rest hw hq hcond => exact ih
    | claim i u d rest hw hq hvis hlen =>
      refine ⟨List.nodup_cons.mpr ⟨fun hmem => hvis (ih.2 u hmem), ih.1⟩, ?_⟩
      intro v hv
      rcases List.mem_cons.mp hv with h | h
      · exact h ▸ List.mem_cons_self _ _
      · exact List.mem_cons_of_mem _ (ih.2 v h)
    | finish i u d hw => exact ih
    | timeoutExit i hw hq => exact ih

/-- Lemma: the recorded page carries the depth it was fetched at. -/
theorem fetchPage_depth (mR : Nat) (bd : Str) (d : PageData) (url : Str) (dep : Nat) :
    (fetchPage mR bd d url dep).depth = dep := by
  unfold fetchPage
  cases (retry_with_backoff (navigateResult d) mR 1 10).1 <;> rfl

/-- Lemma: every enqueued link sits at the parent depth plus one and is
only produced when the parent depth is below `maxDepth`. -/
theorem mem_enqueueLinks {cfg : CrawlerConfig} {page : CrawledPage} {dep : Nat}
    {visited : List Str} {e : Str × Nat} (h : e ∈ enqueueLinks cfg page dep visited) :
    e.2 = dep + 1 ∧ dep < cfg.maxDepth := by
  unfold enqueueLinks at h
  split at h
  · next hc =>
    rcases List.mem_map.mp h with ⟨l, hl, rfl⟩
    exact ⟨rfl, hc.2⟩
  · simp at h

/-- The depth-bound invariant over results, frontier and in-flight
fetches. -/
theorem depth_inv (cfg : CrawlerConfig) (web : Str → PageData) (baseUrl : Str) (n : Nat) :
    ∀ s, Reachable cfg web (initState baseUrl n) s →
      (∀ p ∈ s.results, p.depth ≤ cfg.maxDepth) ∧
      (∀ e ∈ s.queue, e.2 ≤ cfg.maxDepth) ∧
      (∀ (i : Nat) (u : Str) (d : Nat),
        s.workers[i]? = some (WorkerState.fetching u d) → d ≤ cfg.maxDepth) := by
  intro s hs
  induction hs with
  | refl =>
    refine ⟨by simp [initState], ?_, ?_⟩
    · intro e he
      simp only [initState, List.mem_singleton] at he
      simp [he]
    · intro i u d h
      simp only [initState] at h
      rw [List.getElem?_replicate] at h
      split at h <;> simp at h
  | @tail s t hreach hstep ih =>
    cases hstep with
    | skip i u d rest hw hq hcond =>
      refine ⟨ih.1, ?_, ih.2.2⟩
      intro e he
      exact ih.2.1 e (hq ▸ List.mem_cons_of_mem _ he)
    | claim i u d rest hw hq hvis hlen =>
      refine ⟨ih.1, ?_, ?_⟩
      · intro e he
        exact ih.2.1 e (hq ▸ List.mem_cons_of_mem _ he)
      · intro j v dv hj
        rcases getElem?_set_cases hj with h | h
        · simp only [WorkerState.fetching.injEq] at h
          obtain ⟨rfl, rfl⟩ := h
          exact ih.2.1 (v, dv) (hq ▸ List.mem_cons_self _ _)
        · exact ih.2.2 j v dv h
    | finish i u d hw =>
      have hd : d ≤ cfg.maxDepth := ih.2.2 i u d hw
      refine ⟨?_, ?_, ?_⟩
      · intro p hp
        rcases List.mem_append.mp hp with h | h
        · exact ih.1 p h
        · rcases List.mem_singleton.mp h with rfl
          rw [fetchPage_depth]
          exact hd
      · intro e he
        rcases List.mem_append.mp he with h | h
        · exact ih.2.1 e h
        · have := mem_enqueueLinks h
          omega
      · intro j v dv hj
        rcases getElem?_set_cases hj with h | h
        · simp at h
        · exact ih.2.2 j v dv h
    | timeoutExit i hw hq =>
      refine ⟨ih.1, ih.2.1, ?_⟩
      intro j v dv hj
      rcases getElem?_set_cases hj with h | h
      · simp at h
      · exact ih.2.2 j v dv h

/-- C1, amended: in every reachable crawler state the number of recorded
results is at most `maxPages + concurrency - 1`; with a single worker it
is at most `maxPages`.  (The bare bound `maxPages` fails for two or more
workers, see the counterexample.) -/
theorem C1_page_count_bound (cfg : CrawlerConfig) (web : Str → PageData) (baseUrl : Str)
    (n : Nat) (s : CrawlState) (hn : 1 ≤ n)
    (hs : Reachable cfg web (initState baseUrl n) s) :
    s.results.length ≤ cfg.maxPages + (n - 1) ∧
    (n = 1 → s.results.length ≤ cfg.maxPages) := by
  have h := results_bound_inv cfg web baseUrl n hn s hs
  omega

/-- Witness for C1: the amended bound instantiated at the freshly seeded
single-worker crawler. -/
theorem C1_page_count_bound_witness :
    (initState rootC1 1).results.length ≤ cfgC1.maxPages + (1 - 1) ∧
    (1 = 1 → (initState rootC1 1).results.length ≤ cfgC1.maxPages) :=
  C1_page_count_bound cfgC1 webC1 rootC1 1 (initState rootC1 1) (by decide) Reachable.refl

/-- Counterexample to C1 as stated: with `maxPages = 2` and two workers,
an interleaving in which both workers pass the ceiling check before
either appends leaves three recorded results. -/
theorem C1_counterexample :
    ∃ s : CrawlState, Reachable cfgC1 webC1 (initState rootC1 2) s ∧
      cfgC1.maxPages = 2 ∧ 2 < s.results.length := by
  have h0 : Reachable cfgC1 webC1 (initState rootC1 2) (initState rootC1 2) := .refl
  have h1 := h0.tail (Step.claim _ 0 rootC1 0 [] (by decide) (by decide) (by decide) (by decide))
  have h2 := h1.tail (Step.finish _ 0 rootC1 0 (by decide))
  have h3 := h2.tail
    (Step.claim _ 0 bC1 1 [ (cC1, 1) ] (by decide) (by decide) (by decide) (by decide))
  have h4 := h3.tail (Step.claim _ 1 cC1 1 [] (by decide) (by decide) (by decide) (by decide))
  have h5 := h4.tail (Step.finish _ 0 bC1 1 (by decide))
  have h6 := h5.tail (Step.finish _ 1 cC1 1 (by decide))
  exact ⟨_, h6, by decide, by decide⟩

/-- C2: in every reachable crawler state the dispatched fetches are
pairwise-distinct URLs, and every dispatched URL is already in the
visited set (visited-insert happens at claim time, before the fetch). -/
theorem C2_at_most_once_fetch (cfg : CrawlerConfig) (web : Str → PageData) (baseUrl : Str)
    (n : Nat) (s : CrawlState) (hs : Reachable cfg web (initState baseUrl n) s) :
    s.dispatched.Nodup ∧ ∀ u ∈ s.dispatched, u ∈ s.visited :=
  dispatched_inv cfg web baseUrl n s hs

/-- Witness for C2 at the freshly seeded two-worker crawler. -/
theorem C2_at_most_once_fetch_witness :
    (initState rootC1 2).dispatched.Nodup ∧
    ∀ u ∈ (initState rootC1 2).dispatched, u ∈ (initState rootC1 2).visited :=
  C2_at_most_once_fetch cfgC1 webC1 rootC1 2 (initState rootC1 2) Reachable.refl

/-- C3: in every reachable crawler state no recorded result and no
frontier entry has depth above `maxDepth` (links are enqueued only from
SUCCESS pages of depth below `maxDepth`, at the parent depth plus one,
and the root is seeded at depth 0). -/
theorem C3_depth_bound (cfg : CrawlerConfig) (web : Str → PageData) (baseUrl : Str)
    (n : Nat) (s : CrawlState) (hs : Reachable cfg web (initState baseUrl n) s) :
    (∀ p ∈ s.results, p.depth ≤ cfg.maxDepth) ∧ (∀ e ∈ s.queue, e.2 ≤ cfg.maxDepth) :=
  ⟨(depth_inv cfg web baseUrl n s hs).1, (depth_inv cfg web baseUrl n s hs).2.1⟩

/-- Witness for C3 at the freshly seeded two-worker crawler. -/
theorem C3_depth_bound_witness :
    (∀ p ∈ (initState rootC1 2).results, p.depth ≤ cfgC1.maxDepth) ∧
    (∀ e ∈ (initState rootC1 2).queue, e.2 ≤ cfgC1.maxDepth) :=
  C3_depth_bound cfgC1 webC1 rootC1 2 (initState rootC1 2) Reachable.refl

/-- Unfolding lemma: a successful attempt stops the retry loop. -/
theorem retryCore_ok {E A : Type} {func : Nat → Except E A} {b m : ℚ}
    {mR attempt fuel : Nat} {last : Option E} {a : A} (h : func attempt = .ok a) :
    retryCore func b m mR attempt (fuel + 1) last = (.ok a, []) := by
  simp [retryCore, h]

/-- Unfolding lemma: a failed attempt recurses, sleeping unless it was the
last attempt. -/
theorem retryCore_error {E A : Type} {func : Nat → Except E A} {b m : ℚ}
    {mR attempt fuel : Nat} {last : Option E} {e : E} (h : func attempt = .error e) :
    retryCore func b m mR attempt (fuel + 1) last =
      if attempt < mR - 1 then
        ((retryCore func b m mR (attempt + 1) fuel (some e)).1,
          min (b * 2 ^ attempt) m :: (retryCore func b m mR (attempt + 1) fuel (some e)).2)
      else retryCore func b m mR (attempt + 1) fuel (some e) := by
  rw [show retryCore func b m mR attempt (fuel + 1) last =
    (match func attempt with
      | .ok a => (.ok a, [])
      | .error e =>
        let rest := retryCore func b m mR (attempt + 1) fuel (some e)
        if attempt < mR - 1 then
          (rest.1, min (b * 2 ^ attempt) m :: rest.2)
        else rest) from rfl, h]

/-- Helper: `isOk` on an `ok` value. -/
theorem except_isOk_ok {E A : Type} (a : A) : (Except.ok a : Except E A).isOk = true := rfl

/-- Helper: `isOk` on an `error` value. -/
theorem except_isOk_error {E A : Type} (e : E) :
    (Except.error e : Except E A).isOk = false := rfl

/-- Characterization of the retry loop when the first success happens at
attempt `attempt + k`: the value is returned and the sleeps are exactly
the backoff delays of the failed attempts before it. -/
theorem retryCore_success {E A : Type} (func : Nat → Except E A) (b m : ℚ) (mR : Nat) :
    ∀ (fuel attempt : Nat) (last : Option E) (k : Nat) (a : A),
      attempt + fuel = mR → k < fuel →
      (∀ j, j < k → (func (attempt + j)).isOk = false) →
      func (attempt + k) = .ok a →
      retryCore func b m mR attempt fuel last =
        (.ok a, (List.range' attempt k).map (fun i => min (b * 2 ^ i) m)) := by
  intro fuel
  induction fuel with
  | zero =>
    intro attempt last k a hmr hk hfail hsucc
    exact absurd hk (by omega)
  | succ f ih =>
    intro attempt last k a hmr hk hfail hsucc
    cases k with
    | zero =>
      rw [Nat.add_zero] at hsucc
      rw [retryCore_ok hsucc]
      rfl
    | succ k' =>
      rcases herr : func attempt with e | a'
      · have hlt : attempt < mR - 1 := by omega
        have hrec := ih (attempt + 1) (some e) k' a (by omega) (by omega)
          (fun j hj => by
            have h := hfail (j + 1) (by omega)
            rwa [show attempt + (j + 1) = attempt + 1 + j by omega] at h)
          (by rwa [show attempt + 1 + k' = attempt + (k' + 1) by omega])
        rw [retryCore_error herr, if_pos hlt, hrec]
        rfl
      · have h := hfail 0 (by omega)
        rw [Nat.add_zero, herr, except_isOk_ok] at h
        exact Bool.noConfusion h

/-- Characterization of the retry loop when every attempt fails: the last
failure is re-raised and a sleep separates every pair of consecutive
attempts. -/
theorem retryCore_allfail {E A : Type} (func : Nat → Except E A) (b m : ℚ) (mR : Nat) :
    ∀ (fuel attempt : Nat) (last : Option E) (e : E),
      attempt + fuel = mR → 1 ≤ fuel →
      (∀ j, j < fuel → (func (attempt + j)).isOk = false) →
      func (mR - 1) = .error e →
      retryCore func b m mR attempt fuel last =
        (.error (some e),
          (List.range' attempt (fuel - 1)).map (fun i => min (b * 2 ^ i) m)) := by
  intro fuel
  induction fuel with
  | zero =>
    intro attempt last e hmr h1
    exact absurd h1 (by omega)
  | succ f ih =>
    intro attempt last e hmr h1 hfail hlast
    rcases herr : func attempt with e0 | a'
    · cases f with
      | zero =>
        have ha : attempt = mR - 1 := by omega
        rw [ha, hlast] at herr
        obtain rfl : e0 = e := (Except.error.inj herr).symm
        have hnot : ¬ attempt < mR - 1 := by omega
        rw [retryCore_error (by rw [ha]; exact hlast), if_neg hnot]
        rfl
      | succ f' =>
        have hlt : attempt < mR - 1 := by omega
        have hrec := ih (attempt + 1) (some e0) e (by omega) (by omega)
          (fun j hj => by
            have h := hfail (j + 1) (by omega)
            rwa [show attempt + (j + 1) = attempt + 1 + j by omega] at h)
          hlast
        rw [retryCore_error herr, if_pos hlt, hrec]
        rfl
    · have h := hfail 0 (by omega)
      rw [Nat.add_zero, herr, except_isOk_ok] at h
      exact Bool.noConfusion h

/-- C6: `retry_with_backoff` invokes `func`; if the first success is at
attempt `k < maxRetries` its value is returned after exactly the delays
`min(base * 2^i, maxDelay)` for the failed attempts `i < k`; if every
attempt fails, the last failure is re-raised after `maxRetries - 1`
such delays. -/
theorem C6_retry_spec {E A : Type} (func : Nat → Except E A) (maxRetries : Nat)
    (b m : ℚ) (h1 : 1 ≤ maxRetries) :
    (∀ (k : Nat) (a : A), k < maxRetries →
      (∀ j, j < k → (func j).isOk = false) → func k = .ok a →
      retry_with_backoff func maxRetries b m =
        (.ok a, (List.range k).map (fun i => min (b * 2 ^ i) m))) ∧
    (∀ e : E, (∀ j, j < maxRetries → (func j).isOk = false) →
      func (maxRetries - 1) = .error e →
      retry_with_backoff func maxRetries b m =
        (.error (some e), (List.range (maxRetries - 1)).map (fun i => min (b * 2 ^ i) m))) := by
  constructor
  · intro k a hk hfail hsucc
    have h := retryCore_success func b m maxRetries maxRetries 0 none k a (by omega) hk
      (by simpa using hfail) (by simpa using hsucc)
    rw [retry_with_backoff, h, List.range_eq_range']
  · intro e hfail hlast
    have h := retryCore_allfail func b m maxRetries maxRetries 0 none e (by omega) h1
      (by simpa using hfail) hlast
    rw [retry_with_backoff, h, List.range_eq_range']

/-- Witness for C6: the navigation stub that fails twice then succeeds,
run with `maxRetries = 3`, `baseDelay = 1`, `maxDelay = 10`: the call
succeeds and the delay sequence is `base, 2*base` (both below the cap). -/
theorem C6_retry_spec_witness :
    retry_with_backoff stubFunc 3 1 10 = (.ok 42, [ 1, 2 ]) := by
  have h := (C6_retry_spec stubFunc 3 1 10 (by norm_num)).1 2 42 (by norm_num)
    (by decide) rfl
  rw [h]
  norm_num [List.range_succ, min_def]

/-- C4, amended: when navigation times out (on every retry attempt), the
crawl records a result with status ERROR and message "Navigation
failed", not TIMEOUT — `goto` swallows the `PlaywrightTimeout` and
returns `False`, which `_fetch_page` converts into an ERROR result; the
result is returned, never raised (`fetchPage` is total). -/
theorem C4_timeout_records_error (mR : Nat) (bd url : Str) (dep : Nat) (d : PageData)
    (hmr : 1 ≤ mR) (htimeout : ∀ k, d.nav k = .timeout) :
    (fetchPage mR bd d url dep).status = .ERROR ∧
    (fetchPage mR bd d url dep).error_message = some "Navigation failed".toList := by
  have hfail : ∀ j, j < mR → ((navigateResult d) j).isOk = false := by
    intro j hj
    simp only [navigateResult, htimeout j]
    rfl
  have hlast : navigateResult d (mR - 1) = .error "Navigation failed".toList := by
    simp only [navigateResult, htimeout (mR - 1)]
    rfl
  have hretry : (retry_with_backoff (navigateResult d) mR 1 10).1
      = .error (some "Navigation failed".toList) := by
    have h := retryCore_allfail (navigateResult d) 1 10 mR mR 0 none
      ("Navigation failed".toList) (by omega) hmr (by simpa using hfail) hlast
    rw [retry_with_backoff, h]
  refine ⟨?_, ?_⟩ <;> simp [fetchPage, hretry, errMessage]

/-- Witness for C4 (amended) at a concrete all-timeouts navigation. -/
theorem C4_timeout_records_error_witness :
    (fetchPage 3 "example.com".toList timeoutPageData "http://example.com/x".toList 0).status
      = .ERROR ∧
    (fetchPage 3 "example.com".toList timeoutPageData
        "http://example.com/x".toList 0).error_message
      = some "Navigation failed".toList :=
  C4_timeout_records_error 3 ("example.com".toList) ("http://example.com/x".toList) 0
    timeoutPageData (by norm_num) (fun _ => rfl)

/-- Counterexample to C4 as stated: with every navigation attempt timing
out, the recorded status is not TIMEOUT (it is ERROR). -/
theorem C4_counterexample :
    (fetchPage 3 "example.com".toList timeoutPageData "http://example.com/x".toList 0).status
      ≠ PageStatus.TIMEOUT := by decide

/-- C5, amended: `crawl()` seeds the frontier with exactly one entry,
`(rootUrl.rstrip("/"), 0)`; only trailing slashes are stripped from the
root, and this differs in general from the normalization applied to
discovered links. -/
theorem C5_seed_is_rstrip (baseUrl : Str) (n : Nat) :
    (initState baseUrl n).queue = [ (rstripSlash baseUrl, 0) ] ∧
    ∃ r : Str, rstripSlash r ≠ normalizeUrl r :=
  ⟨rfl, ⟨"http://example.com/a#b".toList, by decide⟩⟩

/-- Counterexample to C5 as stated: for a root URL with a fragment the
seeded entry is the raw URL, while its normalization strips the
fragment. -/
theorem C5_counterexample :
    (initState "http://example.com/a#b".toList 1).queue
      = [ ("http://example.com/a#b".toList, 0) ] ∧
    normalizeUrl "http://example.com/a#b".toList = "http://example.com/a".toList ∧
    "http://example.com/a#b".toList ≠ "http://example.com/a".toList :=
  ⟨by decide, by decide, by decide⟩

/-- C7: the source validity check agrees everywhere with the
specification predicate (scheme in {http, https}, host equal to the base
domain, path extension not denylisted, false whenever the URL parse
raises). -/
theorem C7_is_valid_url_spec (baseDomain url : Str) :
    isValidUrl baseDomain url = isValidSpec baseDomain url := by
  unfold isValidUrl isValidSpec
  rcases urlparseE url with e | p
  · rfl
  · by_cases hn : p.netloc = baseDomain <;> by_cases hs1 : p.scheme = "http".toList <;>
      by_cases hs2 : p.scheme = "https".toList <;>
        by_cases he : (skipExtensions.any fun ext => ext.isSuffixOf (lower p.path)) = true <;>
          simp [hn, hs1, hs2, he, bne, Bool.beq_eq_decide_eq]

/-- C10: a SUCCESS result of the page fetch always records
`status_code = 200` and `content_type = "text/html"`, and any response
with actual HTTP status below 400 — whatever its served status and
content type — produces such a SUCCESS result: the real status is never
recorded. -/
theorem C10_success_hardcodes_fields (mR : Nat) (bd : Str) (d : PageData) (url : Str)
    (dep : Nat) :
    ((fetchPage mR bd d url dep).status = .SUCCESS →
      (fetchPage mR bd d url dep).status_code = some 200 ∧
      (fetchPage mR bd d url dep).content_type = some "text/html".toList) ∧
    (∀ (st : Nat) (ct : Str), d.nav 0 = .response st ct → st < 400 → 1 ≤ mR →
      (fetchPage mR bd d url dep).status = .SUCCESS) := by
  constructor
  · intro hs
    rcases h : (retry_with_backoff (navigateResult d) mR 1 10).1 with e | a
    · simp [fetchPage, h] at hs
    · simp [fetchPage, h]
  · intro st ct hnav hst hmr
    have hok : navigateResult d 0 = .ok true := by
      simp only [navigateResult, hnav, gotoOutcome]
      rw [if_neg (by omega : ¬ 400 ≤ st)]
      rfl
    have h := retryCore_success (navigateResult d) 1 10 mR mR 0 none 0 true (by omega)
      (by omega) (fun j hj => absurd hj (by omega)) (by simpa using hok)
    have hr : (retry_with_backoff (navigateResult d) mR 1 10).1 = .ok true := by
      rw [retry_with_backoff, h]
    simp [fetchPage, hr]

/-- Witness for C10: a page served with HTTP 204 and content type
`application/json` is recorded as SUCCESS with `status_code = 200` and
`content_type = "text/html"`. -/
theorem C10_success_hardcodes_fields_witness :
    (fetchPage 3 "example.com".toList page204Data "http://example.com/x".toList 0).status
      = .SUCCESS ∧
    (fetchPage 3 "example.com".toList page204Data "http://example.com/x".toList 0).status_code
      = some 200 ∧
    (fetchPage 3 "example.com".toList page204Data
        "http://example.com/x".toList 0).content_type
      = some "text/html".toList := by
  have h := C10_success_hardcodes_fields 3 ("example.com".toList) page204Data
    ("http://example.com/x".toList) 0
  have hs := h.2 204 ("application/json".toList) rfl (by norm_num) (by norm_num)
  exact ⟨hs, h.1 hs⟩

/-- Helper: `takeWhile` runs through a prefix whose elements all satisfy
the predicate and stops at the first failing element. -/
theorem takeWhile_append_cons {p : Char → Bool} {l₁ : Str} {c : Char} (l₂ : Str)
    (h1 : ∀ a ∈ l₁, p a = true) (hc : p c = false) :
    (l₁ ++ c :: l₂).takeWhile p = l₁ := by
  induction l₁ with
  | nil => simp [List.takeWhile_cons, hc]
  | cons a t ih =>
    have ha : p a = true := h1 a (List.mem_cons_self a t)
    simp only [List.cons_append, List.takeWhile_cons, ha, if_true]
    exact congrArg (a :: ·) (ih (fun x hx => h1 x (List.mem_cons_of_mem a hx)))

/-- Helper: `dropWhile` drops a prefix whose elements all satisfy the
predicate and stops at the first failing element. -/
theorem dropWhile_append_cons {p : Char → Bool} {l₁ : Str} {c : Char} (l₂ : Str)
    (h1 : ∀ a ∈ l₁, p a = true) (hc : p c = false) :
    (l₁ ++ c :: l₂).dropWhile p = c :: l₂ := by
  induction l₁ with
  | nil => simp [List.dropWhile_cons, hc]
  | cons a t ih =>
    have ha : p a = true := h1 a (List.mem_cons_self a t)
    simp only [List.cons_append, List.dropWhile_cons, ha, if_true]
    exact ih (fun x hx => h1 x (List.mem_cons_of_mem a hx))

/-- Helper: `dropWhile` over an append whose left part does not vanish. -/
theorem dropWhile_append_of_ne {p : Char → Bool} {l₁ : Str} (l₂ : Str)
    (h : l₁.dropWhile p ≠ []) : (l₁ ++ l₂).dropWhile p = l₁.dropWhile p ++ l₂ := by
  induction l₁ with
  | nil => simp at h
  | cons a t ih =>
    by_cases hp : p a = true
    · rw [List.cons_append, List.dropWhile_cons, if_pos hp]
      rw [List.dropWhile_cons, if_pos hp] at h ⊢
      exact ih h
    · have hp' : p a = false := by simpa using hp
      rw [List.cons_append, List.dropWhile_cons, if_neg (by simp [hp']),
        List.dropWhile_cons, if_neg (by simp [hp']), List.cons_append]

/-- Helper: `dropWhile` over an append whose left part vanishes. -/
theorem dropWhile_append_of_all {p : Char → Bool} {l₁ : Str} (l₂ : Str)
    (h : ∀ a ∈ l₁, p a = true) : (l₁ ++ l₂).dropWhile p = l₂.dropWhile p := by
  induction l₁ with
  | nil => rfl
  | cons a t ih =>
    rw [List.cons_append, List.dropWhile_cons, if_pos (h a (List.mem_cons_self a t))]
    exact ih (fun x hx => h x (List.mem_cons_of_mem a hx))

/-- Helper: `rstrip("/")` over an append. -/
theorem rstripSlash_append (x y : Str) :
    rstripSlash (x ++ y) =
      if rstripSlash y = [] then rstripSlash x else x ++ rstripSlash y := by
  unfold rstripSlash
  rw [List.reverse_append]
  by_cases h : y.reverse.dropWhile (fun c => c == '/') = []
  · rw [if_pos (by rw [h]; rfl)]
    rw [dropWhile_append_of_all _ (List.dropWhile_eq_nil_iff.mp h)]
  · rw [if_neg (by simp [List.reverse_eq_nil_iff, h])]
    rw [dropWhile_append_of_ne _ h, List.reverse_append, List.reverse_reverse]

/-- Helper: a string ending in a non-slash character is unchanged by
`rstrip("/")`. -/
theorem rstripSlash_snoc {x : Str} {c : Char} (hc : (c == '/') = false) :
    rstripSlash (x ++ [ c ]) = x ++ [ c ] := by
  unfold rstripSlash
  rw [List.reverse_append]
  simp [List.dropWhile_cons, hc]

/-- Helper: a Boolean prefix test yields a decomposition. -/
theorem exists_of_isPrefixOf {l₁ l₂ : Str} (h : l₁.isPrefixOf l₂ = true) :
    ∃ t, l₂ = l₁ ++ t := by
  induction l₁ generalizing l₂ with
  | nil => exact ⟨l₂, rfl⟩
  | cons a t ih =>
    cases l₂ with
    | nil => simp [List.isPrefixOf] at h
    | cons b t₂ =>
      simp only [List.isPrefixOf, Bool.and_eq_true, beq_iff_eq] at h
      obtain ⟨rfl, h2⟩ := h
      obtain ⟨w, rfl⟩ := ih h2
      exact ⟨w, rfl⟩

/-- Helper: `urlparse` does not change the scheme produced by the scheme
split. -/
theorem urlparse_scheme (u : Str) : (urlparse u).scheme = (splitScheme u).1 := by
  simp only [urlparse]
  split <;> rfl

/-- Helper: the scheme split of a string beginning with a nonempty valid
scheme followed by a colon. -/
theorem splitScheme_of_lead {s₀ : Str} (t : Str) (hne : s₀ ≠ [])
    (hhead : isAsciiAlpha (s₀.headD ' ') = true)
    (hall : ∀ a ∈ s₀, isSchemeChar a = true) :
    splitScheme (s₀ ++ ':' :: t) = (lower s₀, t) := by
  have hcolon : ∀ a ∈ s₀, (a != ':') = true := by
    intro a ha
    have hsc := hall a ha
    by_cases hc : a = ':'
    · rw [hc] at hsc
      exact absurd hsc (by decide)
    · simp [bne, hc]
  unfold splitScheme
  rw [takeWhile_append_cons _ hcolon (by decide), dropWhile_append_cons _ hcolon (by decide)]
  rw [if_pos ?cond]
  case cond =>
    cases s₀ with
    | nil => exact absurd rfl hne
    | cons a t₀ => simpa [bne, List.all_eq_true.mpr hall] using hhead
  rfl

/-- Helper: parsing with a default scheme keeps a nonempty parsed scheme. -/
theorem urlparseD_scheme_of_lead {s₀ : Str} (default t : Str) (hne : s₀ ≠ [])
    (hhead : isAsciiAlpha (s₀.headD ' ') = true)
    (hall : ∀ a ∈ s₀, isSchemeChar a = true) :
    (urlparseD default (s₀ ++ ':' :: t)).scheme = lower s₀ := by
  have h1 : (urlparse (s₀ ++ ':' :: t)).scheme = lower s₀ := by
    rw [urlparse_scheme, splitScheme_of_lead t hne hhead hall]
  unfold urlparseD
  rw [if_neg ?ne]
  case ne =>
    rw [h1]
    simp [lower, List.map_eq_nil_iff, hne]
  exact h1

/-- Helper: `urljoin` returns a link with a scheme outside
`uses_relative` unchanged. -/
theorem urljoin_pseudo (cur : Str) {s₀ t : Str} (hne : s₀ ≠ [])
    (hhead : isAsciiAlpha (s₀.headD ' ') = true)
    (hall : ∀ a ∈ s₀, isSchemeChar a = true)
    (hnrel : usesRelative.contains (lower s₀) = false) :
    urljoin cur (s₀ ++ ':' :: t) = s₀ ++ ':' :: t := by
  unfold urljoin
  by_cases hb : (cur == []) = true
  · rw [if_pos hb]
  · rw [if_neg hb, if_neg ?lne]
    case lne =>
      cases s₀ with
      | nil => exact absurd rfl hne
      | cons a t₀ => simp
    rw [if_pos ?cond]
    case cond =>
      rw [urlparseD_scheme_of_lead (urlparse cur).scheme t hne hhead hall, hnrel]
      simp

/-- Helper: the normalization of a URL whose parsed scheme is a fixed
lowercase scheme keeps that scheme as a textual prefix. -/
theorem normalizeUrl_of_scheme {s₀ : Str} (l : Str)
    (hs : (urlparse l).scheme = s₀) :
    ∃ w, normalizeUrl l = s₀ ++ ':' :: w := by
  simp only [normalizeUrl, hs]
  have hre : ∀ z : Str, s₀ ++ [ ':', '/', '/' ] ++ z = (s₀ ++ [ ':' ]) ++ '/' :: '/' :: z := by
    intro z
    simp [List.append_assoc]
  by_cases hq : ((urlparse l).query != []) = true
  · rw [if_pos hq]
    rw [show s₀ ++ [ ':', '/', '/' ] ++ (urlparse l).netloc ++ (urlparse l).path
          ++ '?' :: (urlparse l).query
        = (s₀ ++ [ ':' ]) ++ '/' :: '/' :: ((urlparse l).netloc ++ (urlparse l).path
          ++ '?' :: (urlparse l).query) by simp [List.append_assoc]]
    rw [rstripSlash_append]
    split
    · refine ⟨[], ?_⟩
      rw [rstripSlash_snoc (by decide)]
    · refine ⟨rstripSlash ('/' :: '/' :: ((urlparse l).netloc ++ (urlparse l).path
        ++ '?' :: (urlparse l).query)), ?_⟩
      rw [List.append_assoc]
      rfl
  · rw [if_neg hq]
    rw [show s₀ ++ [ ':', '/', '/' ] ++ (urlparse l).netloc ++ (urlparse l).path
        = (s₀ ++ [ ':' ]) ++ '/' :: '/' :: ((urlparse l).netloc ++ (urlparse l).path) by
      simp [List.append_assoc]]
    rw [rstripSlash_append]
    split
    · refine ⟨[], ?_⟩
      rw [rstripSlash_snoc (by decide)]
    · refine ⟨rstripSlash ('/' :: '/' :: ((urlparse l).netloc ++ (urlparse l).path)), ?_⟩
      rw [List.append_assoc]
      rfl

/-- Helper: the validity check rejects every URL whose parsed scheme is a
fixed lowercase non-http(s) scheme, whatever the base domain. -/
theorem isValidUrl_scheme_not_http {s₀ : Str} (bd w : Str) (hne : s₀ ≠ [])
    (hhead : isAsciiAlpha (s₀.headD ' ') = true)
    (hall : ∀ a ∈ s₀, isSchemeChar a = true) (hlow : lower s₀ = s₀)
    (hhttp : s₀ ≠ "http".toList) (hhttps : s₀ ≠ "https".toList) :
    isValidUrl bd (s₀ ++ ':' :: w) = false := by
  unfold isValidUrl
  cases hE : urlparseE (s₀ ++ ':' :: w) with
  | error e => rfl
  | ok p =>
    have hp : p = urlparse (s₀ ++ ':' :: w) := by
      unfold urlparseE at hE
      split at hE
      · exact Except.noConfusion hE
      · exact (Except.ok.inj hE).symm
    have hps : p.scheme = s₀ := by
      rw [hp, urlparse_scheme, splitScheme_of_lead w hne hhead hall]
      exact hlow
    by_cases hn : p.netloc = bd
    · simp only [hps]
      simp [hn, Bool.beq_eq_decide_eq, bne]
      intro h
      rcases h with h | h
      · exact absurd h hhttp
      · exact absurd h hhttps
    · simp [hn, hps, Bool.beq_eq_decide_eq, hhttp, hhttps, bne]

/-- Helper: a link carrying a pseudo scheme (javascript, mailto, tel)
survives `urljoin` unchanged and then fails the validity check. -/
theorem pseudo_link_invalid (bd cur l : Str) (hp : isPseudoLink l = true) :
    isValidUrl bd (normalizeUrl (urljoin cur l)) = false := by
  have main : ∀ (s₀ t : Str), l = s₀ ++ ':' :: t → s₀ ≠ [] →
      isAsciiAlpha (s₀.headD ' ') = true → (∀ a ∈ s₀, isSchemeChar a = true) →
      lower s₀ = s₀ → usesRelative.contains (lower s₀) = false →
      s₀ ≠ "http".toList → s₀ ≠ "https".toList →
      isValidUrl bd (normalizeUrl (urljoin cur l)) = false := by
    intro s₀ t hl h1 h2 h3 h4 h5 h6 h7
    rw [hl, urljoin_pseudo cur h1 h2 h3 h5]
    have hs : (urlparse (s₀ ++ ':' :: t)).scheme = s₀ := by
      rw [urlparse_scheme, splitScheme_of_lead t h1 h2 h3]
      exact h4
    obtain ⟨w, hw⟩ := normalizeUrl_of_scheme (s₀ ++ ':' :: t) hs
    rw [hw]
    exact isValidUrl_scheme_not_http bd w h1 h2 h3 h4 h6 h7
  unfold isPseudoLink at hp
  simp only [Bool.or_eq_true] at hp
  rcases hp with (hp1 | hp2) | hp3
  · obtain ⟨t, rfl⟩ := exists_of_isPrefixOf hp1
    exact main ("javascript".toList) t rfl (by decide) (by decide)
      (by decide) (by decide) (by decide) (by decide) (by decide)
  · obtain ⟨t, rfl⟩ := exists_of_isPrefixOf hp2
    exact main ("mailto".toList) t rfl (by decide) (by decide)
      (by decide) (by decide) (by decide) (by decide) (by decide)
  · obtain ⟨t, rfl⟩ := exists_of_isPrefixOf hp3
    exact main ("tel".toList) t rfl (by decide) (by decide)
      (by decide) (by decide) (by decide) (by decide) (by decide)

/-- Helper: the filter loop ignores pseudo-scheme links, whatever the
accumulator. -/
theorem filterLinks_foldl_pseudo (bd cur : Str) :
    ∀ (links : List Str) (acc : List Str),
      links.foldl (filterLinksStep bd cur) acc
        = (links.filter (fun l => !isPseudoLink l)).foldl (filterLinksStep bd cur) acc := by
  intro links
  induction links with
  | nil => intro acc; rfl
  | cons l rest ih =>
    intro acc
    by_cases hp : isPseudoLink l = true
    · rw [List.filter_cons, if_neg (by simp [hp]), List.foldl_cons]
      have hskip : filterLinksStep bd cur acc l = acc := by
        simp only [filterLinksStep]
        rw [pseudo_link_invalid bd cur l hp]
        rfl
      rw [hskip]
      exact ih acc
    · rw [List.filter_cons, if_pos (by simp [hp]), List.foldl_cons, List.foldl_cons]
      exact ih _

/-- C9, amended: raw links starting with `javascript:`, `mailto:` or
`tel:` never contribute an output entry to `_filter_links` — but the
rejection happens after resolution (they survive `urljoin` unchanged and
fail the scheme/domain validity check), and empty or `#` links are NOT
rejected: they resolve to the current URL and can yield an output entry
(see the counterexample).  (The pre-resolution rejection the spec
describes lives in the browser-side `get_links`, not in
`_filter_links`.) -/
theorem C9_pseudo_links_rejected (bd : Str) (links : List Str) (cur : Str) :
    filterLinks bd links cur = filterLinks bd (links.filter (fun l => !isPseudoLink l)) cur := by
  unfold filterLinks
  exact filterLinks_foldl_pseudo bd cur links []

/-- Counterexample to C9 as stated: the empty raw link is not rejected
before resolution — it resolves to the current URL and produces an
output entry derived from it. -/
theorem C9_counterexample :
    filterLinks "example.com".toList [ "".toList ] "https://example.com/a".toList
      = [ "https://example.com/a".toList ] := by decide

/-- Helper: `Char.ofNat` round-trips on small codepoints. -/
theorem toNat_ofNat_small {n : Nat} (h : n < 1000) : (Char.ofNat n).toNat = n := by
  unfold Char.ofNat
  split
  · rfl
  · next hn => exact absurd (Or.inl (by omega)) hn

/-- Helper: ASCII lowering is idempotent. -/
theorem lowerChar_idem (c : Char) : lowerChar (lowerChar c) = lowerChar c := by
  unfold lowerChar
  by_cases h : 65 ≤ c.toNat ∧ c.toNat ≤ 90
  · rw [if_pos h]
    have ht : (Char.ofNat (c.toNat + 32)).toNat = c.toNat + 32 :=
      toNat_ofNat_small (by omega)
    rw [if_neg (by rw [ht]; omega)]
  · rw [if_neg h, if_neg h]

/-- Helper: ASCII lowering preserves letters. -/
theorem isAsciiAlpha_lowerChar (c : Char) : isAsciiAlpha (lowerChar c) = isAsciiAlpha c := by
  unfold lowerChar
  by_cases h : 65 ≤ c.toNat ∧ c.toNat ≤ 90
  · rw [if_pos h]
    unfold isAsciiAlpha
    rw [toNat_ofNat_small (by omega), Bool.eq_iff_iff]
    simp only [Bool.or_eq_true, Bool.and_eq_true, decide_eq_true_eq]
    omega
  · rw [if_neg h]

/-- Helper: ASCII lowering preserves scheme characters. -/
theorem isSchemeChar_lowerChar {c : Char} (h : isSchemeChar c = true) :
    isSchemeChar (lowerChar c) = true := by
  unfold lowerChar
  by_cases hc : 65 ≤ c.toNat ∧ c.toNat ≤ 90
  · rw [if_pos hc]
    unfold isSchemeChar isAsciiAlpha
    rw [toNat_ofNat_small (by omega)]
    simp only [Bool.or_eq_true, Bool.and_eq_true, decide_eq_true_eq]
    exact Or.inl (Or.inl (Or.inl (Or.inl (Or.inr ⟨by omega, by omega⟩))))
  · rw [if_neg hc]
    exact h

/-- Helper: lowering is idempotent on strings. -/
theorem lower_idem (s : Str) : lower (lower s) = lower s := by
  simp only [lower, List.map_map]
  exact List.map_congr_left (fun c _ => by
    simp only [Function.comp_apply]
    exact lowerChar_idem c)

/-- Helper: `takeWhile` passes over an all-satisfying prefix. -/
theorem takeWhile_append_of_all {p : Char → Bool} {l₁ : Str} (l₂ : Str)
    (h : ∀ a ∈ l₁, p a = true) : (l₁ ++ l₂).takeWhile p = l₁ ++ l₂.takeWhile p := by
  induction l₁ with
  | nil => rfl
  | cons a t ih =>
    rw [List.cons_append, List.takeWhile_cons, if_pos (h a (List.mem_cons_self a t)),
      List.cons_append]
    exact congrArg (a :: ·) (ih (fun x hx => h x (List.mem_cons_of_mem a hx)))

/-- Helper: `takeWhile` keeps an all-satisfying list. -/
theorem takeWhile_of_all {p : Char → Bool} {l : Str} (h : ∀ a ∈ l, p a = true) :
    l.takeWhile p = l :=
  List.takeWhile_eq_self_iff.mpr h

/-- Helper: splitting at an absent character is trivial. -/
theorem splitAtFirst_not_mem {c : Char} {l : Str} (h : c ∉ l) :
    splitAtFirst c l = (l, []) := by
  unfold splitAtFirst
  have hall : ∀ a ∈ l, (a != c) = true := by
    intro a ha
    have : a ≠ c := fun hac => h (hac ▸ ha)
    simp [bne, this]
  rw [takeWhile_of_all hall, List.dropWhile_eq_nil_iff.mpr hall]
  rfl

/-- Helper: the head surviving a `dropWhile` fails the predicate. -/
theorem head?_dropWhile_false {p : Char → Bool} {l : Str} {c : Char}
    (h : (l.dropWhile p).head? = some c) : p c = false := by
  induction l with
  | nil => simp at h
  | cons a t ih =>
    rw [List.dropWhile_cons] at h
    split at h
    · exact ih h
    · next hp =>
      rw [List.head?_cons] at h
      obtain rfl := Option.some.inj h
      simpa using hp

/-- Helper: `rstrip("/")` never leaves a trailing slash. -/
theorem rstripSlash_getLast? (l : Str) : (rstripSlash l).getLast? ≠ some '/' := by
  unfold rstripSlash
  rw [List.getLast?_reverse]
  intro h
  have := head?_dropWhile_false h
  simp at this

/-- Helper: a string with no trailing slash is `rstrip("/")`-fixed. -/
theorem rstripSlash_eq_self {l : Str} (h : l.getLast? ≠ some '/') : rstripSlash l = l := by
  unfold rstripSlash
  cases hrev : l.reverse with
  | nil =>
    rw [List.reverse_eq_nil_iff] at hrev
    rw [hrev]
    rfl
  | cons a t =>
    have ha : a ≠ '/' := by
      intro hc
      apply h
      rw [List.getLast?_eq_head?_reverse, hrev, List.head?_cons, hc]
    rw [List.dropWhile_cons, if_neg (by simp [ha]), ← hrev, List.reverse_reverse]

/-- Helper: `rstrip("/")` vanishes exactly on all-slash strings. -/
theorem rstripSlash_eq_nil_iff (l : Str) : rstripSlash l = [] ↔ ∀ c ∈ l, c = '/' := by
  unfold rstripSlash
  rw [List.reverse_eq_nil_iff, List.dropWhile_eq_nil_iff]
  constructor
  · intro h c hc
    have := h c (List.mem_reverse.mpr hc)
    simpa using this
  · intro h c hc
    have := h c (List.mem_reverse.mp hc)
    simp [this]

/-- Helper: `rstrip("/")` keeps a subset of the characters. -/
theorem rstripSlash_subset {l : Str} {c : Char} (h : c ∈ rstripSlash l) : c ∈ l := by
  unfold rstripSlash at h
  rw [List.mem_reverse] at h
  exact List.mem_reverse.mp ((List.dropWhile_sublist _).mem h)

/-- Helper: a slash-free string is `rstrip("/")`-fixed. -/
theorem rstripSlash_of_no_slash {l : Str} (h : '/' ∉ l) : rstripSlash l = l := by
  apply rstripSlash_eq_self
  intro hc
  cases hl : l.getLast? with
  | none => rw [hl] at hc; exact Option.noConfusion hc
  | some a =>
    rw [hl] at hc
    obtain rfl := Option.some.inj hc
    rw [List.getLast?_eq_head?_reverse] at hl
    exact h (List.mem_reverse.mp (List.mem_of_mem_head? hl))

/-- Helper: the params split does not change the netloc. -/
theorem urlparse_netloc (u : Str) : (urlparse u).netloc = (urlsplit u).netloc := by
  simp only [urlparse]
  split <;> rfl

/-- Helper: the params split does not change the query. -/
theorem urlparse_query (u : Str) : (urlparse u).query = (urlsplit u).query := by
  simp only [urlparse]
  split <;> rfl

/-- Helper: a parsed scheme is empty or a nonempty lowercase valid scheme
with a leading ASCII letter. -/
theorem scheme_props (u : Str) :
    (splitScheme u).1 = [] ∨
    ((splitScheme u).1 ≠ [] ∧ isAsciiAlpha ((splitScheme u).1.headD ' ') = true ∧
      (∀ a ∈ (splitScheme u).1, isSchemeChar a = true) ∧
      lower (splitScheme u).1 = (splitScheme u).1) := by
  simp only [splitScheme]
  split
  · next hcond =>
    right
    simp only [Bool.and_eq_true] at hcond
    obtain ⟨⟨⟨hrest, hpre⟩, hhead⟩, hall⟩ := hcond
    rw [List.all_eq_true] at hall
    cases htw : u.takeWhile (fun a => a != ':') with
    | nil =>
      rw [htw] at hpre
      simp [bne] at hpre
    | cons a t =>
      rw [htw] at hhead hall
      refine ⟨by simp [lower], ?_, ?_, lower_idem _⟩
      · simp only [lower, List.map_cons, List.headD_cons]
        rw [isAsciiAlpha_lowerChar]
        simpa using hhead
      · intro x hx
        simp only [lower, List.mem_map] at hx
        obtain ⟨y, hy, rfl⟩ := hx
        exact isSchemeChar_lowerChar (hall y hy)
  · exact Or.inl rfl

/-- Helper: no character of the first split component is the split
character. -/
theorem splitAtFirst_fst_not_mem (c : Char) (l : Str) : c ∉ (splitAtFirst c l).1 := by
  intro h
  have := List.mem_takeWhile_imp h
  simp at this

/-- Helper: the first split component is made of characters of the
input. -/
theorem splitAtFirst_fst_subset {c x : Char} {l : Str} (h : x ∈ (splitAtFirst c l).1) :
    x ∈ l :=
  (List.takeWhile_sublist _).mem h

/-- Helper: the second split component is made of characters of the
input. -/
theorem splitAtFirst_snd_subset {c x : Char} {l : Str} (h : x ∈ (splitAtFirst c l).2) :
    x ∈ l :=
  (List.dropWhile_sublist _).mem ((List.tail_sublist _).mem h)

/-- Helper: the netloc of `urlsplit` contains no delimiter, its path no
hash or question mark, and its query no hash. -/
theorem urlsplit_props (u : Str) :
    (∀ c ∈ (urlsplit u).netloc, netlocDelim c = false) ∧
    '#' ∉ (urlsplit u).path ∧ '?' ∉ (urlsplit u).path ∧ '#' ∉ (urlsplit u).query := by
  simp only [urlsplit]
  refine ⟨?_, ?_, ?_, ?_⟩
  · intro c hc
    split at hc
    · have := List.mem_takeWhile_imp hc
      simpa using this
    · simp at hc
  · intro hc
    exact splitAtFirst_fst_not_mem '#' _ (splitAtFirst_fst_subset hc)
  · exact fun hc => splitAtFirst_fst_not_mem '?' _ hc
  · intro hc
    exact splitAtFirst_fst_not_mem '#' _ (splitAtFirst_snd_subset hc)

/-- Helper: the params split keeps a subset of the path characters. -/
theorem splitparams_fst_subset {p : Str} {c : Char} (h : c ∈ (splitparams p).1) : c ∈ p := by
  simp only [splitparams] at h
  split at h
  · split at h
    · rw [List.mem_append] at h
      rcases h with h | h
      · rw [List.mem_reverse] at h
        exact List.mem_reverse.mp ((List.dropWhile_sublist _).mem h)
      · have h2 := (List.takeWhile_sublist _).mem h
        rw [List.mem_reverse] at h2
        exact List.mem_reverse.mp ((List.takeWhile_sublist _).mem h2)
    · exact h
  · exact (List.takeWhile_sublist _).mem h

/-- Helper: the path of `urlparse` is made of characters of the path of
`urlsplit`. -/
theorem urlparse_path_subset {u : Str} {c : Char} (h : c ∈ (urlparse u).path) :
    c ∈ (urlsplit u).path := by
  simp only [urlparse] at h
  split at h
  · exact splitparams_fst_subset h
  · exact h

/-- Helper: Boolean containment from propositional non-membership. -/
theorem contains_eq_false_of_not_mem {l : Str} {c : Char} (h : c ∉ l) :
    l.contains c = false := by
  rw [← Bool.not_eq_true]
  intro hc
  exact h (List.elem_iff.mp hc)

/-- Helper: `urlsplit` on a rebuilt `scheme://...` string, given the
scheme split. -/
theorem urlsplit_rebuilt (s y : Str)
    (h : splitScheme (s ++ ':' :: '/' :: '/' :: y) = (s, '/' :: '/' :: y)) :
    urlsplit (s ++ ':' :: '/' :: '/' :: y) =
      ⟨s, (splitNetloc y).1,
        (splitAtFirst '?' ((splitAtFirst '#' ((splitNetloc y).2)).1)).1, [],
        (splitAtFirst '?' ((splitAtFirst '#' ((splitNetloc y).2)).1)).2,
        (splitAtFirst '#' ((splitNetloc y).2)).2⟩ := by
  simp only [urlsplit, h]
  rfl

/-- Helper: `urlsplit` on a bare `scheme:` string, given the scheme
split. -/
theorem urlsplit_bare (s : Str) (h : splitScheme (s ++ [ ':' ]) = (s, [])) :
    urlsplit (s ++ [ ':' ]) = ⟨s, [], [], [], [], []⟩ := by
  simp only [urlsplit, h]
  rfl

/-- Helper: `normalizeUrl` fixes a bare `scheme:` string. -/
theorem normalizeUrl_fixed_bare (s : Str) (hsne : s ≠ [])
    (hshead : isAsciiAlpha (s.headD ' ') = true)
    (hsall : ∀ a ∈ s, isSchemeChar a = true) (hslow : lower s = s) :
    normalizeUrl (s ++ [ ':' ]) = s ++ [ ':' ] := by
  have h := splitScheme_of_lead [] hsne hshead hsall
  rw [hslow] at h
  have hsplit : urlsplit (s ++ [ ':' ]) = ⟨s, [], [], [], [], []⟩ := urlsplit_bare s h
  have hparse : urlparse (s ++ [ ':' ]) = ⟨s, [], [], [], [], []⟩ := by
    simp only [urlparse, hsplit]
    rfl
  simp only [normalizeUrl, hparse]
  rw [if_neg (by simp)]
  rw [show (s ++ [ ':', '/', '/' ] ++ [] : Str) = (s ++ [ ':' ]) ++ [ '/', '/' ] by
    simp [List.append_assoc]]
  have h2 : rstripSlash ([ '/', '/' ] : Str) = [] := by decide
  have h0 : rstripSlash ([] : Str) = [] := rfl
  rw [rstripSlash_append, if_pos h0]
  rw [rstripSlash_append, h2, if_pos rfl]
  refine rstripSlash_snoc ?_
  decide

/-- Helper: `normalizeUrl` fixes every rebuilt URL of the canonical
shape `scheme://netloc-part path-part [?query-part]` that does not end
in a slash. -/
theorem normalizeUrl_fixed (s n' D qt : Str)
    (hsne : s ≠ []) (hshead : isAsciiAlpha (s.headD ' ') = true)
    (hsall : ∀ a ∈ s, isSchemeChar a = true) (hslow : lower s = s)
    (hn : ∀ c ∈ n', netlocDelim c = false)
    (hDq : '?' ∉ D) (hDh : '#' ∉ D) (hDsemi : ';' ∉ D)
    (hq : qt = [] ∨ ∃ q₀, qt = '?' :: q₀ ∧ q₀ ≠ [] ∧ '#' ∉ q₀)
    (hBne : n' ++ D ++ qt ≠ [])
    (hBlast : (n' ++ D ++ qt).getLast? ≠ some '/') :
    normalizeUrl (s ++ ':' :: '/' :: '/' :: (n' ++ D ++ qt))
      = s ++ ':' :: '/' :: '/' :: (n' ++ D ++ qt) := by
  have hsch := splitScheme_of_lead ('/' :: '/' :: (n' ++ D ++ qt)) hsne hshead hsall
  rw [hslow] at hsch
  have hn' : ∀ c ∈ n', (!netlocDelim c) = true := fun c hc => by simp [hn c hc]
  have hsplit := urlsplit_rebuilt s (n' ++ D ++ qt) hsch
  have hMR : (splitNetloc (n' ++ D ++ qt)).1 ++ (splitNetloc (n' ++ D ++ qt)).2
      = n' ++ D ++ qt := List.takeWhile_append_dropWhile _ _
  rcases hq with rfl | ⟨q₀, rfl, hq₀ne, hq₀h⟩
  · -- no query part
    have hr₂ : (splitNetloc (n' ++ D ++ [])).2 = D.dropWhile (fun c => !netlocDelim c) := by
      show ((n' ++ D ++ []).dropWhile fun c => !netlocDelim c) = _
      rw [List.append_nil, dropWhile_append_of_all _ hn']
    have hsub : ∀ x ∈ (splitNetloc (n' ++ D ++ [])).2, x ∈ D := by
      rw [hr₂]
      exact fun x hx => (List.dropWhile_sublist _).mem hx
    have hfrag : splitAtFirst '#' ((splitNetloc (n' ++ D ++ [])).2)
        = ((splitNetloc (n' ++ D ++ [])).2, []) :=
      splitAtFirst_not_mem (fun hc => hDh (hsub _ hc))
    have hqsp : splitAtFirst '?' ((splitNetloc (n' ++ D ++ [])).2)
        = ((splitNetloc (n' ++ D ++ [])).2, []) :=
      splitAtFirst_not_mem (fun hc => hDq (hsub _ hc))
    have hparse : urlparse (s ++ ':' :: '/' :: '/' :: (n' ++ D ++ []))
        = ⟨s, (splitNetloc (n' ++ D ++ [])).1, (splitNetloc (n' ++ D ++ [])).2, [], [], []⟩ := by
      simp only [urlparse, hsplit, hfrag, hqsp]
      rw [if_neg ?c1]
      case c1 =>
        simp only [contains_eq_false_of_not_mem (fun hc => hDsemi (hsub _ hc))]
        simp
    simp only [normalizeUrl, hparse]
    rw [show ((⟨s, (splitNetloc (n' ++ D ++ [])).1, (splitNetloc (n' ++ D ++ [])).2,
        [], [], []⟩ : UrlParts).query != []) = false by rfl]
    simp only [Bool.false_eq_true, if_false]
    rw [show s ++ [ ':', '/', '/' ] ++ (splitNetloc (n' ++ D ++ [])).1
          ++ (splitNetloc (n' ++ D ++ [])).2
        = s ++ ':' :: '/' :: '/' :: ((splitNetloc (n' ++ D ++ [])).1
          ++ (splitNetloc (n' ++ D ++ [])).2) by simp [List.append_assoc]]
    rw [hMR]
    apply rstripSlash_eq_self
    rw [show s ++ ':' :: '/' :: '/' :: (n' ++ D ++ [])
        = (s ++ [ ':', '/', '/' ]) ++ (n' ++ D ++ []) by simp [List.append_assoc]]
    rw [List.getLast?_append]
    cases hbl : (n' ++ D ++ ([] : Str)).getLast? with
    | none => exact absurd (List.getLast?_eq_none_iff.mp hbl) hBne
    | some b =>
      rw [hbl] at hBlast
      simpa using hBlast
  · -- query part present
    have hr₂ : (splitNetloc (n' ++ D ++ '?' :: q₀)).2
        = D.dropWhile (fun c => !netlocDelim c) ++ '?' :: q₀ := by
      show ((n' ++ D ++ '?' :: q₀).dropWhile fun c => !netlocDelim c) = _
      rw [List.append_assoc, dropWhile_append_of_all _ hn']
      by_cases hD2 : D.dropWhile (fun c => !netlocDelim c) = []
      · rw [dropWhile_append_of_all _ (List.dropWhile_eq_nil_iff.mp hD2), hD2,
          List.nil_append, List.dropWhile_cons, if_neg (by simp [netlocDelim])]
      · exact dropWhile_append_of_ne _ hD2
    have hD2sub : ∀ x ∈ D.dropWhile (fun c => !netlocDelim c), x ∈ D :=
      fun x hx => (List.dropWhile_sublist _).mem hx
    have hfrag : splitAtFirst '#' ((splitNetloc (n' ++ D ++ '?' :: q₀)).2)
        = ((splitNetloc (n' ++ D ++ '?' :: q₀)).2, []) := by
      apply splitAtFirst_not_mem
      rw [hr₂]
      intro hc
      rcases List.mem_append.mp hc with hc | hc
      · exact hDh (hD2sub _ hc)
      · rcases List.mem_cons.mp hc with hc | hc
        · exact absurd hc (by decide)
        · exact hq₀h hc
    have hqsp : splitAtFirst '?' ((splitNetloc (n' ++ D ++ '?' :: q₀)).2)
        = (D.dropWhile (fun c => !netlocDelim c), q₀) := by
      rw [hr₂]
      unfold splitAtFirst
      have hD2q : ∀ a ∈ D.dropWhile (fun c => !netlocDelim c), (a != '?') = true := by
        intro a ha
        have : a ≠ '?' := fun hc => hDq (hc ▸ hD2sub _ ha)
        simp [bne, this]
      rw [takeWhile_append_cons _ hD2q (by decide), dropWhile_append_cons _ hD2q (by decide)]
      rfl
    have hparse : urlparse (s ++ ':' :: '/' :: '/' :: (n' ++ D ++ '?' :: q₀))
        = ⟨s, (splitNetloc (n' ++ D ++ '?' :: q₀)).1,
            D.dropWhile (fun c => !netlocDelim c), [], q₀, []⟩ := by
      simp only [urlparse, hsplit, hfrag, hqsp]
      rw [if_neg ?c2]
      case c2 =>
        rw [contains_eq_false_of_not_mem (fun hc => hDsemi (hD2sub _ hc))]
        simp
    simp only [normalizeUrl, hparse]
    rw [show ((⟨s, (splitNetloc (n' ++ D ++ '?' :: q₀)).1,
        D.dropWhile (fun c => !netlocDelim c), [], q₀, []⟩ : UrlParts).query != [])
        = (q₀ != []) by rfl]
    rw [show (q₀ != []) = true by simp [bne, hq₀ne]]
    simp only [if_true]
    rw [show s ++ [ ':', '/', '/' ] ++ (splitNetloc (n' ++ D ++ '?' :: q₀)).1
          ++ D.dropWhile (fun c => !netlocDelim c) ++ '?' :: q₀
        = s ++ ':' :: '/' :: '/' :: ((splitNetloc (n' ++ D ++ '?' :: q₀)).1
          ++ (D.dropWhile (fun c => !netlocDelim c) ++ '?' :: q₀)) by
      simp [List.append_assoc]]
    rw [← hr₂, hMR]
    apply rstripSlash_eq_self
    rw [show s ++ ':' :: '/' :: '/' :: (n' ++ D ++ '?' :: q₀)
        = (s ++ [ ':', '/', '/' ]) ++ (n' ++ D ++ '?' :: q₀) by simp [List.append_assoc]]
    rw [List.getLast?_append]
    cases hbl : (n' ++ D ++ '?' :: q₀).getLast? with
    | none =>
      rw [List.getLast?_eq_none_iff] at hbl
      simp at hbl
    | some b =>
      rw [hbl] at hBlast
      simpa using hBlast

/-- Helper: a `getLast?` value is a member. -/
theorem mem_of_getLast?_eq {l : Str} {b : Char} (h : l.getLast? = some b) : b ∈ l := by
  rw [List.getLast?_eq_head?_reverse] at h
  exact List.mem_reverse.mp (List.mem_of_mem_head? h)

/-- C8, amended: URL normalization is idempotent on every URL that parses
with a nonempty scheme, contains no square brackets (so the real parser
raises no bracketed-host error), has no semicolon in its parsed path
(params split), and whose query is not a nonempty run of slashes.
Outside this fragment idempotence fails, see the counterexample. -/
theorem C8_normalize_idempotent (u : Str)
    (hscheme : (urlparse u).scheme ≠ [])
    (_hbrL : '[' ∉ u) (_hbrR : ']' ∉ u)
    (hsemi : ';' ∉ (urlparse u).path)
    (hquery : (∀ c ∈ (urlparse u).query, c = '/') → (urlparse u).query = []) :
    normalizeUrl (normalizeUrl u) = normalizeUrl u := by
  have hNall := (urlsplit_props u).1
  have hPAq' := (urlsplit_props u).2.2.1
  have hPAh' := (urlsplit_props u).2.1
  have hQh' := (urlsplit_props u).2.2.2
  have hprops := scheme_props u
  rw [← urlparse_scheme] at hprops
  have hN0 := urlparse_netloc u
  have hQ0 := urlparse_query u
  rcases hup : urlparse u with ⟨S, N, PA, PR, Q, F⟩
  simp only [hup] at hscheme hsemi hquery hprops hN0 hQ0
  have hN : ∀ c ∈ N, netlocDelim c = false := fun c hc => hNall c (hN0 ▸ hc)
  have hPAq : '?' ∉ PA := fun hc => hPAq' (urlparse_path_subset (by rw [hup]; exact hc))
  have hPAh : '#' ∉ PA := fun hc => hPAh' (urlparse_path_subset (by rw [hup]; exact hc))
  have hQh : '#' ∉ Q := fun hc => hQh' (hQ0 ▸ hc)
  rcases hprops with h0 | ⟨_, hhead, hall, hlow⟩
  · exact absurd h0 hscheme
  have hnu : normalizeUrl u = rstripSlash (if (Q != []) = true
      then S ++ [ ':', '/', '/' ] ++ N ++ PA ++ '?' :: Q
      else S ++ [ ':', '/', '/' ] ++ N ++ PA) := by
    simp only [normalizeUrl, hup]
  by_cases hq0 : Q = []
  · subst hq0
    have hnu0 : normalizeUrl u = rstripSlash (S ++ [ ':', '/', '/' ] ++ N ++ PA) := by
      rw [hnu, if_neg (by simp)]
    by_cases hpa0 : rstripSlash PA = []
    · by_cases hn0 : N = []
      · have hv : normalizeUrl u = S ++ [ ':' ] := by
          rw [hnu0, hn0]
          rw [show S ++ [ ':', '/', '/' ] ++ [] ++ PA
              = (S ++ [ ':' ]) ++ ([ '/', '/' ] ++ PA) by simp [List.append_assoc]]
          rw [rstripSlash_append]
          rw [if_pos ?z]
          case z =>
            rw [rstripSlash_append, hpa0, if_pos rfl]
            decide
          refine rstripSlash_snoc ?_
          decide
        rw [hv]
        exact normalizeUrl_fixed_bare S hscheme hhead hall hlow
      · have hlastN : (S ++ [ ':', '/', '/' ] ++ N).getLast? ≠ some '/' := by
          rw [List.getLast?_append]
          cases hb : N.getLast? with
          | none => exact absurd (List.getLast?_eq_none_iff.mp hb) hn0
          | some b =>
            rw [Option.or_some]
            intro hcon
            obtain rfl := Option.some.inj hcon
            simpa [netlocDelim] using hN '/' (mem_of_getLast?_eq hb)
        have hv : normalizeUrl u = S ++ ':' :: '/' :: '/' :: (N ++ [] ++ []) := by
          rw [hnu0, rstripSlash_append, hpa0, if_pos rfl, rstripSlash_eq_self hlastN]
          simp [List.append_assoc]
        rw [hv]
        refine normalizeUrl_fixed S N [] [] hscheme hhead hall hlow hN (by simp) (by simp)
          (by simp) (Or.inl rfl) (by simp [hn0]) ?_
        simp only [List.append_nil]
        intro hcon
        simpa [netlocDelim] using hN '/' (mem_of_getLast?_eq hcon)
    · have hv : normalizeUrl u = S ++ ':' :: '/' :: '/' :: (N ++ rstripSlash PA ++ []) := by
        rw [hnu0, rstripSlash_append, if_neg hpa0]
        simp [List.append_assoc]
      rw [hv]
      refine normalizeUrl_fixed S N (rstripSlash PA) [] hscheme hhead hall hlow hN
        (fun hc => hPAq (rstripSlash_subset hc)) (fun hc => hPAh (rstripSlash_subset hc))
        (fun hc => hsemi (rstripSlash_subset hc)) (Or.inl rfl) (by simp [hpa0]) ?_
      simp only [List.append_nil]
      rw [List.getLast?_append]
      cases hb : (rstripSlash PA).getLast? with
      | none => exact absurd (List.getLast?_eq_none_iff.mp hb) hpa0
      | some b =>
        rw [Option.or_some]
        have hlast := rstripSlash_getLast? PA
        rw [hb] at hlast
        exact hlast
  · have hq₀ne : rstripSlash Q ≠ [] := by
      intro hc
      exact hq0 (hquery ((rstripSlash_eq_nil_iff Q).mp hc))
    have hv : normalizeUrl u = S ++ ':' :: '/' :: '/' :: (N ++ PA ++ '?' :: rstripSlash Q) := by
      rw [hnu, if_pos (by simp [bne, hq0])]
      rw [show S ++ [ ':', '/', '/' ] ++ N ++ PA ++ '?' :: Q
          = (S ++ [ ':', '/', '/' ] ++ N ++ PA ++ [ '?' ]) ++ Q by simp [List.append_assoc]]
      rw [rstripSlash_append, if_neg hq₀ne]
      simp [List.append_assoc]
    rw [hv]
    refine normalizeUrl_fixed S N PA ('?' :: rstripSlash Q) hscheme hhead hall hlow hN
      hPAq hPAh hsemi
      (Or.inr ⟨rstripSlash Q, rfl, hq₀ne, fun hc => hQh (rstripSlash_subset hc)⟩)
      (by simp) ?_
    rw [show N ++ PA ++ '?' :: rstripSlash Q = (N ++ PA) ++ ([ '?' ] ++ rstripSlash Q) by
      simp [List.append_assoc]]
    rw [List.getLast?_append, List.getLast?_append]
    cases hb : (rstripSlash Q).getLast? with
    | none => exact absurd (List.getLast?_eq_none_iff.mp hb) hq₀ne
    | some b =>
      rw [Option.or_some, Option.or_some]
      have hlast := rstripSlash_getLast? Q
      rw [hb] at hlast
      exact hlast

/-- Counterexample to C8 as stated: a schemeless URL gains a `://` marker
on every normalization pass, so normalization is not idempotent on all
URL strings. -/
theorem C8_counterexample :
    normalizeUrl (normalizeUrl "foo".toList) ≠ normalizeUrl "foo".toList := by decide

/-- Witness for C8 (amended) at a concrete in-fragment URL. -/
theorem C8_normalize_idempotent_witness :
    normalizeUrl (normalizeUrl "https://example.com/a/b?x=1".toList)
      = normalizeUrl "https://example.com/a/b?x=1".toList :=
  C8_normalize_idempotent ("https://example.com/a/b?x=1".toList) (by decide) (by decide)
    (by decide) (by decide) (by decide)

example : normalizeUrl "https://example.com/".toList = "https://example.com".toList := by decide
example : normalizeUrl "https://example.com/page#section".toList
    = "https://example.com/page".toList := by decide
example : normalizeUrl "https://example.com/page?q=1".toList
    = "https://example.com/page?q=1".toList := by decide
example : isValidUrl "example.com".toList "https://example.com/page".toList = true := by decide
example : isValidUrl "example.com".toList "https://other.com/page".toList = false := by decide
example : isValidUrl "example.com".toList "https://example.com/image.png".toList = false := by
  decide
example : urljoin "https://example.com".toList "/about".toList
    = "https://example.com/about".toList := by decide
example : urljoin "https://example.com/a/b".toList "c/d".toList
    = "https://example.com/a/c/d".toList := by decide
example : urljoin "https://example.com/a/b".toList "../c".toList
    = "https://example.com/c".toList := by decide
example : urljoin "https://example.com/a".toList "".toList
    = "https://example.com/a".toList := by decide
example : urljoin "https://example.com/a".toList "#".toList
    = "https://example.com/a".toList := by decide
example : urljoin "https://example.com/a".toList "mailto:x@y.z".toList
    = "mailto:x@y.z".toList := by decide
example : normalizeUrl (normalizeUrl "foo".toList) ≠ normalizeUrl "foo".toList := by decide
example : filterLinks "example.com".toList [ "".toList ] "https://example.com/a".toList
    = [ "https://example.com/a".toList ] := by decide

end WebScanner
